import Mathlib

/-
Verification of the poker evaluation and equity-estimation core of the
mit-poker-2026 repository.  Cards of the skeleton bots are two-character
strings (rank character followed by suit character); we embed them as pairs
of characters.  Cards of the cc_py_bot, which works with numeric ranks and
suits, are embedded as pairs of natural numbers.
-/

set_option maxRecDepth 4000

abbrev Card := Char × Char

/-- The four canonical suit labels, in the order the canonicalizer assigns
them (the Python iterator over the string shdc). -/
def suitLabels : List Char := ['s', 'h', 'd', 'c']

/-- Label handed to the n-th newly seen suit.  The Python iterator raises
past the fourth label; we totalize with a junk character, which is never
reached on inputs drawn from a four-symbol suit alphabet. -/
def suitLabel (n : Nat) : Char := suitLabels.getD n 'x'

/-- First-match lookup in an association list of suits, mirroring the
Python dictionary suit_map. -/
def lookupSuit (s : Char) : List (Char × Char) → Option Char
  | [] => none
  | p :: rest => if p.1 = s then some p.2 else lookupSuit s rest

/-- Worker of canonicalize_cards: the accumulated suit_map is passed
explicitly; a fresh suit receives the next unused canonical label. -/
def canonGo (m : List (Char × Char)) : List Card → List Card
  | [] => []
  | c :: rest =>
    match lookupSuit c.2 m with
    | some l => (c.1, l) :: canonGo m rest
    | none => (c.1, suitLabel m.length) :: canonGo (m ++ [(c.2, suitLabel m.length)]) rest

namespace BD

/-- Embeds canonicalize_cards of build_discard_table.py: suits are relabeled
by first-seen order while scanning left to right. -/
def canonicalize_cards (cards : List Card) : List Card := canonGo [] cards

end BD

theorem canonGo_length (m : List (Char × Char)) (xs : List Card) :
    (canonGo m xs).length = xs.length := by
  induction xs generalizing m with
  | nil => rfl
  | cons c rest ih =>
    unfold canonGo
    cases lookupSuit c.2 m <;> simp [ih]

theorem canonGo_ranks (m : List (Char × Char)) (xs : List Card) :
    (canonGo m xs).map Prod.fst = xs.map Prod.fst := by
  induction xs generalizing m with
  | nil => rfl
  | cons c rest ih =>
    unfold canonGo
    cases lookupSuit c.2 m <;> simp [ih]

theorem lookupSuit_map_inj (f : Char → Char) (hf : Function.Injective f)
    (s : Char) (m : List (Char × Char)) :
    lookupSuit (f s) (m.map (fun p => (f p.1, p.2))) = lookupSuit s m := by
  induction m with
  | nil => rfl
  | cons p rest ih =>
    by_cases h : p.1 = s
    · simp [lookupSuit, h]
    · have h2 : ¬ f p.1 = f s := fun hc => h (hf hc)
      simp [lookupSuit, h, h2, ih]

theorem canonGo_map_inj (f : Char → Char) (hf : Function.Injective f)
    (xs : List Card) (m : List (Char × Char)) :
    canonGo (m.map (fun p => (f p.1, p.2))) (xs.map (fun c => (c.1, f c.2))) =
      canonGo m xs := by
  induction xs generalizing m with
  | nil => rfl
  | cons c rest ih =>
    simp only [List.map_cons, canonGo]
    rw [lookupSuit_map_inj f hf c.2 m]
    cases h : lookupSuit c.2 m with
    | some l => simpa using ih m
    | none =>
      have hlen : (m.map (fun p => (f p.1, p.2))).length = m.length := by simp
      have happ : (m.map (fun p => (f p.1, p.2))) ++ [(f c.2, suitLabel m.length)] =
          (m ++ [(c.2, suitLabel m.length)]).map (fun p => (f p.1, p.2)) := by simp
      simp only [hlen, happ]
      simpa using ih (m ++ [(c.2, suitLabel m.length)])

/-- C1: the canonicalizer is invariant under any uniform injective relabeling
of the suit symbols applied before canonicalization, and it leaves ranks,
positions and the length of the input unchanged. -/
theorem canon_suit_invariance (f : Char → Char) (hf : Function.Injective f)
    (xs : List Card) :
    BD.canonicalize_cards (xs.map (fun c => (c.1, f c.2))) = BD.canonicalize_cards xs ∧
    (BD.canonicalize_cards xs).map Prod.fst = xs.map Prod.fst ∧
    (BD.canonicalize_cards xs).length = xs.length := by
  refine ⟨?_, canonGo_ranks [] xs, canonGo_length [] xs⟩
  have h := canonGo_map_inj f hf xs []
  simpa [BD.canonicalize_cards] using h

/-- Witness for C1 at the suit transposition swapping s and h on a concrete
three-card sequence. -/
theorem canon_suit_invariance_witness :
    Function.Injective (Equiv.swap 's' 'h') ∧
    (BD.canonicalize_cards ((([('A', 's'), ('K', 'h'), ('Q', 's')] : List Card)).map
        (fun c => (c.1, Equiv.swap 's' 'h' c.2))) =
      BD.canonicalize_cards [('A', 's'), ('K', 'h'), ('Q', 's')] ∧
    (BD.canonicalize_cards [('A', 's'), ('K', 'h'), ('Q', 's')]).map Prod.fst =
      ([('A', 's'), ('K', 'h'), ('Q', 's')] : List Card).map Prod.fst ∧
    (BD.canonicalize_cards [('A', 's'), ('K', 'h'), ('Q', 's')]).length =
      ([('A', 's'), ('K', 'h'), ('Q', 's')] : List Card).length) :=
  ⟨(Equiv.swap 's' 'h').injective,
    canon_suit_invariance (Equiv.swap 's' 'h') (Equiv.swap 's' 'h').injective
      [('A', 's'), ('K', 'h'), ('Q', 's')]⟩

/-- Identity suit_map on the first n canonical labels: the state the second
canonicalization pass reaches after the first pass has introduced n suits. -/
def idMap : Nat → List (Char × Char)
  | 0 => []
  | n + 1 => idMap n ++ [(suitLabel n, suitLabel n)]

theorem idMap_length (n : Nat) : (idMap n).length = n := by
  induction n with
  | zero => rfl
  | succ n ih => simp [idMap, ih]

theorem lookupSuit_append (s : Char) (m1 m2 : List (Char × Char)) :
    lookupSuit s (m1 ++ m2) =
      match lookupSuit s m1 with
      | some l => some l
      | none => lookupSuit s m2 := by
  induction m1 with
  | nil => rfl
  | cons p rest ih =>
    by_cases h : p.1 = s <;> simp [lookupSuit, h, ih]

theorem suitLabel_inj_lt : ∀ i < 4, ∀ j < 4, suitLabel i = suitLabel j → i = j := by
  decide

theorem idMap_lookup_ge (n k : Nat) (hk : k ≤ n) (hn : n < 4) :
    lookupSuit (suitLabel n) (idMap k) = none := by
  induction k with
  | zero => rfl
  | succ j ih =>
    rw [idMap, lookupSuit_append, ih (Nat.le_of_succ_le hk)]
    have hj : j < 4 := by omega
    have hne : ¬ suitLabel j = suitLabel n := fun h => by
      have := suitLabel_inj_lt j hj n hn h
      omega
    simp [lookupSuit, hne]

theorem idMap_lookup_lt (i n : Nat) (hi : i < n) (hn : n ≤ 4) :
    lookupSuit (suitLabel i) (idMap n) = some (suitLabel i) := by
  induction n with
  | zero => omega
  | succ j ih =>
    rw [idMap, lookupSuit_append]
    rcases Nat.lt_or_ge i j with h | h
    · rw [ih h (Nat.le_of_succ_le hn)]
    · have hij : i = j := by omega
      subst hij
      rw [idMap_lookup_ge i i (Nat.le_refl i) (by omega)]
      simp [lookupSuit]

theorem lookupSuit_some_mem (s l : Char) (m : List (Char × Char))
    (h : lookupSuit s m = some l) : l ∈ m.map Prod.snd := by
  induction m with
  | nil => simp [lookupSuit] at h
  | cons p rest ih =>
    by_cases hp : p.1 = s
    · simp [lookupSuit, hp] at h
      simp [h]
    · simp [lookupSuit, hp] at h
      simp [ih h]

theorem lookupSuit_none_not_mem (s : Char) (m : List (Char × Char))
    (h : lookupSuit s m = none) : s ∉ m.map Prod.fst := by
  induction m with
  | nil => simp
  | cons p rest ih =>
    by_cases hp : p.1 = s
    · simp [lookupSuit, hp] at h
    · simp [lookupSuit, hp] at h
      simp [hp, ih h]
      exact fun hc => hp hc.symm

theorem canonGo_idem_aux (xs : List Card) :
    ∀ (m : List (Char × Char)) (S : Finset Char),
    m.map Prod.snd = (List.range m.length).map suitLabel →
    (m.map Prod.fst).Nodup →
    (∀ p ∈ m, p.1 ∈ S) →
    (∀ c ∈ xs, c.2 ∈ S) →
    S.card ≤ 4 →
    canonGo (idMap m.length) (canonGo m xs) = canonGo m xs := by
  induction xs with
  | nil => intro m S _ _ _ _ _; rfl
  | cons c rest ih =>
    intro m S hvals hnd hkeys hsuits hS
    have hkeysub : (m.map Prod.fst).toFinset ⊆ S := by
      intro x hx
      rw [List.mem_toFinset] at hx
      rcases List.mem_map.mp hx with ⟨p, hp, rfl⟩
      exact hkeys p hp
    have hcardkeys : (m.map Prod.fst).toFinset.card = m.length := by
      rw [List.toFinset_card_of_nodup hnd, List.length_map]
    have hmlen : m.length ≤ 4 := by
      have := Finset.card_le_card hkeysub
      omega
    simp only [canonGo]
    cases hl : lookupSuit c.2 m with
    | some l =>
      have hmem := lookupSuit_some_mem c.2 l m hl
      rw [hvals] at hmem
      rcases List.mem_map.mp hmem with ⟨i, hi, rfl⟩
      rw [List.mem_range] at hi
      simp only [canonGo]
      rw [idMap_lookup_lt i m.length hi hmlen]
      rw [ih m S hvals hnd hkeys
        (fun d hd => hsuits d (List.mem_cons_of_mem c hd)) hS]
    | none =>
      have hsnotkey : c.2 ∉ m.map Prod.fst := lookupSuit_none_not_mem c.2 m hl
      have hlt : m.length < 4 := by
        have hcS : c.2 ∈ S := hsuits c (List.mem_cons_self c rest)
        have hsub2 : insert c.2 (m.map Prod.fst).toFinset ⊆ S := by
          intro x hx
          rcases Finset.mem_insert.mp hx with rfl | hx
          · exact hcS
          · exact hkeysub hx
        have hcard : (insert c.2 (m.map Prod.fst).toFinset).card = m.length + 1 := by
          rw [Finset.card_insert_of_not_mem (by rw [List.mem_toFinset]; exact hsnotkey)]
          omega
        have := Finset.card_le_card hsub2
        omega
      simp only [canonGo]
      rw [idMap_lookup_ge m.length m.length (Nat.le_refl _) hlt]
      rw [idMap_length]
      have hmap2 : idMap m.length ++ [(suitLabel m.length, suitLabel m.length)] =
          idMap (m.length + 1) := rfl
      rw [hmap2]
      have hlen' : (m ++ [(c.2, suitLabel m.length)]).length = m.length + 1 := by simp
      have hvals' : ((m ++ [(c.2, suitLabel m.length)]).map Prod.snd) =
          (List.range (m ++ [(c.2, suitLabel m.length)]).length).map suitLabel := by
        rw [hlen', List.range_succ]
        simp [hvals]
      have hnd' : ((m ++ [(c.2, suitLabel m.length)]).map Prod.fst).Nodup := by
        rw [List.map_append]
        rw [List.nodup_append]
        refine ⟨hnd, List.nodup_singleton _, ?_⟩
        intro a ha hb
        simp at hb
        subst hb
        exact hsnotkey ha
      have hkeys' : ∀ p ∈ m ++ [(c.2, suitLabel m.length)], p.1 ∈ S := by
        intro p hp
        rcases List.mem_append.mp hp with hp | hp
        · exact hkeys p hp
        · simp at hp
          subst hp
          exact hsuits c (List.mem_cons_self c rest)
      have := ih (m ++ [(c.2, suitLabel m.length)]) S hvals' hnd' hkeys'
        (fun d hd => hsuits d (List.mem_cons_of_mem c hd)) hS
      rw [hlen'] at this
      rw [this]

/-- C2: the canonicalizer is idempotent on every card sequence drawn from at
most four distinct suit symbols. -/
theorem canon_idempotent (xs : List Card)
    (h4 : (xs.map Prod.snd).toFinset.card ≤ 4) :
    BD.canonicalize_cards (BD.canonicalize_cards xs) = BD.canonicalize_cards xs := by
  have h := canonGo_idem_aux xs [] ((xs.map Prod.snd).toFinset) rfl List.nodup_nil
    (fun p hp => absurd hp (List.not_mem_nil p))
    (fun c hc => List.mem_toFinset.mpr (List.mem_map_of_mem Prod.snd hc)) h4
  simpa [BD.canonicalize_cards, idMap] using h

/-- Witness for C2 on a concrete three-card sequence. -/
theorem canon_idempotent_witness :
    ((([('A', 'd'), ('K', 'c'), ('Q', 'd')] : List Card)).map Prod.snd).toFinset.card ≤ 4 ∧
    BD.canonicalize_cards (BD.canonicalize_cards [('A', 'd'), ('K', 'c'), ('Q', 'd')]) =
      BD.canonicalize_cards [('A', 'd'), ('K', 'c'), ('Q', 'd')] :=
  ⟨by decide, canon_idempotent [('A', 'd'), ('K', 'c'), ('Q', 'd')] (by decide)⟩

/-- Two-character string of a card, rank character then suit character. -/
def cardStr (c : Card) : String := String.mk [c.1, c.2]

/-- Lexicographic order on the two-character card strings, as Python string
comparison sees them. -/
def cardLe (a b : Card) : Bool :=
  decide (a.1 < b.1) || (decide (a.1 = b.1) && decide (a.2 ≤ b.2))

def insertCard (a : Card) : List Card → List Card
  | [] => [a]
  | b :: rest => if cardLe a b then a :: b :: rest else b :: insertCard a rest

/-- Ascending sort of card strings, embedding the Python builtin sorted. -/
def sortCards (l : List Card) : List Card := l.foldr insertCard []

/-- Underscore-joined card strings, embedding the join on sorted cards. -/
def joinCards (l : List Card) : String := String.intercalate ("_") (l.map cardStr)

/-- Rank characters in ascending order, the RANKS constant of the sources. -/
def rankOrderChars : List Char := "23456789TJQKA".toList

/-- Index of a rank character in RANKS, the rank_order dictionary. -/
def rankOrder (r : Char) : Nat := rankOrderChars.indexOf r

/-- Python max over a nonempty list with a key function: keeps the first
element whose key is maximal. -/
def pyMaxBy (f : Char → Nat) : List Char → Char
  | [] => 'x'
  | r :: rs => rs.foldl (fun acc x => if f acc < f x then x else acc) r

/-- Python min over a nonempty list with a key function: keeps the first
element whose key is minimal. -/
def pyMinBy (f : Char → Nat) : List Char → Char
  | [] => 'x'
  | r :: rs => rs.foldl (fun acc x => if f x < f acc then x else acc) r

namespace BD

/-- Embeds hand_key of build_discard_table.py: canonicalize hand followed by
board, keep the hand part, sort it and join with underscores. -/
def hand_key (hand board : List Card) : String :=
  joinCards (sortCards ((canonicalize_cards (hand ++ board)).take hand.length))

/-- Embeds flop_signature of build_discard_table.py: coarse board texture of
the canonicalized board (suit texture, pairing, high rank, spread,
connectivity), with the sentinel for an empty board. -/
def flop_signature (board : List Card) (hand : List Card) : String :=
  if board = [] then "empty"
  else
    let canon := canonicalize_cards (hand ++ board)
    let canon_board := canon.drop hand.length
    let ranks := canon_board.map Prod.fst
    let suits := canon_board.map Prod.snd
    let hi := pyMaxBy rankOrder ranks
    let lo := pyMinBy rankOrder ranks
    let paired : Nat := if ranks.eraseDups.length < ranks.length then 1 else 0
    let max_suit := suits.foldl (fun acc s => max acc (suits.count s)) 1
    let suit_tex := if max_suit = 1 then "rainbow"
      else if max_suit = 2 then "two" else "mono"
    let spread := rankOrder hi - rankOrder lo
    let connect := if spread ≤ 2 then "tight"
      else if spread ≤ 4 then "med" else "loose"
    suit_tex ++ "|paired:" ++ toString paired ++ "|hi:" ++ String.singleton hi ++
      "|spread:" ++ toString spread ++ "|connect:" ++ connect

end BD

namespace BE

/-- Embeds canonicalize_cards of build_equity_table.py, identical in text to
the build_discard_table.py version. -/
def canonicalize_cards (cards : List Card) : List Card := canonGo [] cards

/-- Embeds hand_board_key of build_equity_table.py: sorted canonical hand,
a pipe, then the sorted canonical board. -/
def hand_board_key (hand board : List Card) : String :=
  let canon := canonicalize_cards (hand ++ board)
  joinCards (sortCards (canon.take hand.length)) ++ "|" ++
    joinCards (sortCards (canon.drop hand.length))

end BE

namespace RT

/-- Embeds the private canonicalize method of player.py, identical in text to
the builder version. -/
def canonicalize_cards (cards : List Card) : List Card := canonGo [] cards

/-- Embeds the private hand_key method of player.py. -/
def hand_key (hand board : List Card) : String :=
  joinCards (sortCards ((canonicalize_cards (hand ++ board)).take hand.length))

/-- Embeds the private flop_signature method of player.py. -/
def flop_signature (board : List Card) (hand : List Card) : String :=
  if board = [] then "empty"
  else
    let canon := canonicalize_cards (hand ++ board)
    let canon_board := canon.drop hand.length
    let ranks := canon_board.map Prod.fst
    let suits := canon_board.map Prod.snd
    let hi := pyMaxBy rankOrder ranks
    let lo := pyMinBy rankOrder ranks
    let paired : Nat := if ranks.eraseDups.length < ranks.length then 1 else 0
    let max_suit := suits.foldl (fun acc s => max acc (suits.count s)) 1
    let suit_tex := if max_suit = 1 then "rainbow"
      else if max_suit = 2 then "two" else "mono"
    let spread := rankOrder hi - rankOrder lo
    let connect := if spread ≤ 2 then "tight"
      else if spread ≤ 4 then "med" else "loose"
    suit_tex ++ "|paired:" ++ toString paired ++ "|hi:" ++ String.singleton hi ++
      "|spread:" ++ toString spread ++ "|connect:" ++ connect

/-- Embeds the private equity_key method of player.py, documented in the
source as matching the key format of build_equity_table.py. -/
def equity_key (hand board : List Card) : String :=
  let canon := canonicalize_cards (hand ++ board)
  joinCards (sortCards (canon.take hand.length)) ++ "|" ++
    joinCards (sortCards (canon.drop hand.length))

end RT

/-- C4: build-side and runtime key functions agree character for character on
every hand and board: hand keys, flop signatures and equity keys coincide. -/
theorem key_format_parity (hand board : List Card) :
    RT.hand_key hand board = BD.hand_key hand board ∧
    RT.flop_signature board hand = BD.flop_signature board hand ∧
    RT.equity_key hand board = BE.hand_board_key hand board :=
  ⟨rfl, rfl, rfl⟩

theorem canonGo_append_take (m : List (Char × Char)) (xs ys : List Card) :
    (canonGo m (xs ++ ys)).take xs.length = canonGo m xs := by
  induction xs generalizing m with
  | nil => simp [canonGo]
  | cons c rest ih =>
    simp only [List.cons_append, canonGo]
    cases lookupSuit c.2 m <;> simp [List.take_succ_cons, ih]

theorem canonGo_take_self (m : List (Char × Char)) (xs : List Card) :
    (canonGo m xs).take xs.length = canonGo m xs := by
  rw [← canonGo_length m xs, List.take_length]

/-- C10: the canonical hand key does not depend on the board, because hand
cards are scanned before board cards; this holds for the build-side key and
for the runtime key alike. -/
theorem hand_key_board_independent (hand board : List Card) :
    BD.hand_key hand board = BD.hand_key hand [] ∧
    RT.hand_key hand board = RT.hand_key hand [] := by
  constructor
  · unfold BD.hand_key BD.canonicalize_cards
    rw [canonGo_append_take, List.append_nil, canonGo_take_self]
  · unfold RT.hand_key RT.canonicalize_cards
    rw [canonGo_append_take, List.append_nil, canonGo_take_self]

/-- The 52-card universe produced by the external deck abstraction; the
listing order is a modelling choice, every property proved about decks is
order-insensitive. -/
def fullDeck : List Card :=
  rankOrderChars.foldr (fun r acc => ("shdc".toList.map (fun s => (r, s))) ++ acc) []

/-- Trial deck of an estimator call: the 52-card universe minus the known
cards, embedding the filter on deck.cards against the used set. -/
def remainingDeck (known1 known2 : List Card) : List Card :=
  fullDeck.filter (fun c => decide (¬ (c ∈ known1 ∨ c ∈ known2)))

/-- Two opponent cards dealt from the top of the shuffled trial deck. -/
def dealtOpp (d : List Card) : List Card := d.take 2

/-- Board cards drawn after the opponent cards. -/
def dealtDraw (need : Nat) (d : List Card) : List Card := (d.drop 2).take need

/-- Cards left in the trial deck after both deals. -/
def dealtRest (need : Nat) (d : List Card) : List Card := (d.drop 2).drop need

/-- One Monte Carlo trial of the estimators: shuffle, deal two opponent
cards and the missing board cards, score both sides with the external
oracle, update the win and tie counters, and return the dealt cards to the
deck.  The shuffle of trial t is the function sh t; the score oracle is ev.
The state is (wins, ties, deck). -/
def trialStep (sh : Nat → List Card → List Card) (ev : List Card → Int)
    (board hand : List Card) (need : Nat)
    (st : Nat × Nat × List Card) (t : Nat) : Nat × Nat × List Card :=
  let d := sh t st.2.2
  let my := ev ((board ++ dealtDraw need d) ++ hand)
  let os := ev ((board ++ dealtDraw need d) ++ dealtOpp d)
  ((if os < my then st.1 + 1 else st.1),
   (if ¬ os < my ∧ my = os then st.2.1 + 1 else st.2.1),
   dealtRest need d ++ (dealtOpp d ++ dealtDraw need d))

/-- The Monte Carlo loop of both estimators: k trials from a starting deck. -/
def runTrials (sh : Nat → List Card → List Card) (ev : List Card → Int)
    (board hand : List Card) (need : Nat) (deck0 : List Card) (k : Nat) :
    Nat × Nat × List Card :=
  (List.range k).foldl (trialStep sh ev board hand need) (0, 0, deck0)

/-- Scores of the two sides in trial t, read off the deck state the loop has
reached before that trial. -/
def scoreAt (sh : Nat → List Card → List Card) (ev : List Card → Int)
    (board hand : List Card) (need : Nat) (deck0 : List Card) (t : Nat) :
    Int × Int :=
  let d := sh t (runTrials sh ev board hand need deck0 t).2.2
  (ev ((board ++ dealtDraw need d) ++ hand),
   ev ((board ++ dealtDraw need d) ++ dealtOpp d))

namespace BD

/-- Embeds estimate_equity of build_discard_table.py: Monte Carlo equity of
the kept cards against a random opponent with the board fixed, completing the
board to five cards.  There is no precondition check: the draw count is the
truncated 5 minus board size, and a negative Python draw count is modelled by
an empty deal. -/
def estimate_equity (sh : Nat → List Card → List Card) (ev : List Card → Int)
    (kept board : List Card) (trials : Nat) : ℚ :=
  let deck0 := remainingDeck kept board
  let need := 5 - board.length
  let r := runTrials sh ev board kept need deck0 trials
  if trials = 0 then 0 else ((r.1 : ℚ) + (1 / 2) * (r.2.1 : ℚ)) / (trials : ℚ)

end BD

/-- The draw count computed by estimate_equity of build_discard_table.py,
as the Python integer subtraction. -/
def discard_need_board (board : List Card) : Int := 5 - (board.length : Int)

namespace BE

/-- Final board size of the variant, the FINAL_BOARD_CARDS constant. -/
def FINAL_BOARD_CARDS : Nat := 6

/-- Embeds best5_score of build_equity_table.py: best score of the external
oracle over all five-card subsets, starting from zero. -/
def best5_score (ev : List Card → Int) (cards : List Card) : Int :=
  (cards.sublistsLen 5).foldl
    (fun best combo => if best < ev combo then ev combo else best) 0

/-- Embeds estimate_equity of build_equity_table.py: raises the distinct
configuration error when the board already exceeds the six-card target,
otherwise runs the Monte Carlo loop with best-five scoring. -/
def estimate_equity (sh : Nat → List Card → List Card) (ev : List Card → Int)
    (hand board : List Card) (trials : Nat) : Except String ℚ :=
  let deck0 := remainingDeck hand board
  if FINAL_BOARD_CARDS < board.length then
    Except.error ("Board has more than final 6 cards")
  else
    let need := FINAL_BOARD_CARDS - board.length
    let r := runTrials sh (fun cs => best5_score ev cs) board hand need deck0 trials
    if trials = 0 then Except.ok 0
    else Except.ok (((r.1 : ℚ) + (1 / 2) * (r.2.1 : ℚ)) / (trials : ℚ))

end BE

theorem runTrials_succ (sh : Nat → List Card → List Card) (ev : List Card → Int)
    (board hand : List Card) (need : Nat) (deck0 : List Card) (k : Nat) :
    runTrials sh ev board hand need deck0 (k + 1) =
      trialStep sh ev board hand need (runTrials sh ev board hand need deck0 k) k := by
  unfold runTrials
  rw [List.range_succ, List.foldl_append, List.foldl_cons, List.foldl_nil]

theorem runTrials_wins (sh : Nat → List Card → List Card) (ev : List Card → Int)
    (board hand : List Card) (need : Nat) (deck0 : List Card) (k : Nat) :
    (runTrials sh ev board hand need deck0 k).1 =
      (List.range k).countP (fun t =>
        decide ((scoreAt sh ev board hand need deck0 t).2 <
          (scoreAt sh ev board hand need deck0 t).1)) := by
  induction k with
  | zero => rfl
  | succ j ih =>
    rw [runTrials_succ, List.range_succ, List.countP_append]
    show (if (scoreAt sh ev board hand need deck0 j).2 <
        (scoreAt sh ev board hand need deck0 j).1 then
        (runTrials sh ev board hand need deck0 j).1 + 1
      else (runTrials sh ev board hand need deck0 j).1) = _
    rw [ih]
    by_cases h : (scoreAt sh ev board hand need deck0 j).2 <
        (scoreAt sh ev board hand need deck0 j).1 <;>
      simp [h, List.countP_cons]

theorem runTrials_ties (sh : Nat → List Card → List Card) (ev : List Card → Int)
    (board hand : List Card) (need : Nat) (deck0 : List Card) (k : Nat) :
    (runTrials sh ev board hand need deck0 k).2.1 =
      (List.range k).countP (fun t =>
        decide ((scoreAt sh ev board hand need deck0 t).1 =
          (scoreAt sh ev board hand need deck0 t).2)) := by
  induction k with
  | zero => rfl
  | succ j ih =>
    rw [runTrials_succ, List.range_succ, List.countP_append]
    show (if ¬ (scoreAt sh ev board hand need deck0 j).2 <
          (scoreAt sh ev board hand need deck0 j).1 ∧
        (scoreAt sh ev board hand need deck0 j).1 =
          (scoreAt sh ev board hand need deck0 j).2 then
        (runTrials sh ev board hand need deck0 j).2.1 + 1
      else (runTrials sh ev board hand need deck0 j).2.1) = _
    rw [ih]
    by_cases h : (scoreAt sh ev board hand need deck0 j).1 =
        (scoreAt sh ev board hand need deck0 j).2
    · have hnl : ¬ (scoreAt sh ev board hand need deck0 j).2 <
          (scoreAt sh ev board hand need deck0 j).1 := by omega
      simp [h, hnl, List.countP_cons]
    · have : ¬ (¬ (scoreAt sh ev board hand need deck0 j).2 <
            (scoreAt sh ev board hand need deck0 j).1 ∧
          (scoreAt sh ev board hand need deck0 j).1 =
            (scoreAt sh ev board hand need deck0 j).2) := fun hc => h hc.2
      simp [h, this, List.countP_cons]

theorem trialStep_counts_le (sh : Nat → List Card → List Card) (ev : List Card → Int)
    (board hand : List Card) (need : Nat) (st : Nat × Nat × List Card) (t : Nat) :
    (trialStep sh ev board hand need st t).1 +
      (trialStep sh ev board hand need st t).2.1 ≤ st.1 + st.2.1 + 1 := by
  unfold trialStep
  dsimp only
  split
  · split
    · rename_i h1 h2
      exact absurd h1 h2.1
    · omega
  · split
    · omega
    · omega

theorem runTrials_total_le (sh : Nat → List Card → List Card) (ev : List Card → Int)
    (board hand : List Card) (need : Nat) (deck0 : List Card) (k : Nat) :
    (runTrials sh ev board hand need deck0 k).1 +
      (runTrials sh ev board hand need deck0 k).2.1 ≤ k := by
  induction k with
  | zero => exact Nat.le_refl 0
  | succ j ih =>
    rw [runTrials_succ]
    refine le_trans (trialStep_counts_le sh ev board hand need _ j) ?_
    omega

/-- Number of trials among the first k whose own score strictly exceeds the
opponent score. -/
def winCount (sh : Nat → List Card → List Card) (ev : List Card → Int)
    (board hand : List Card) (need : Nat) (deck0 : List Card) (k : Nat) : Nat :=
  (List.range k).countP (fun t =>
    decide ((scoreAt sh ev board hand need deck0 t).2 <
      (scoreAt sh ev board hand need deck0 t).1))

/-- Number of trials among the first k whose two scores are equal. -/
def tieCount (sh : Nat → List Card → List Card) (ev : List Card → Int)
    (board hand : List Card) (need : Nat) (deck0 : List Card) (k : Nat) : Nat :=
  (List.range k).countP (fun t =>
    decide ((scoreAt sh ev board hand need deck0 t).1 =
      (scoreAt sh ev board hand need deck0 t).2))

theorem mcValue_nonneg (w t k : Nat) :
    0 ≤ (if k = 0 then (0 : ℚ) else ((w : ℚ) + (1 / 2) * (t : ℚ)) / (k : ℚ)) := by
  split
  · exact le_refl 0
  · positivity

theorem mcValue_le_one (w t k : Nat) (h : w + t ≤ k) :
    (if k = 0 then (0 : ℚ) else ((w : ℚ) + (1 / 2) * (t : ℚ)) / (k : ℚ)) ≤ 1 := by
  split
  · norm_num
  · rename_i hk
    have hkpos : 0 < (k : ℚ) := by
      have : 0 < k := Nat.pos_of_ne_zero hk
      exact_mod_cast this
    rw [div_le_one hkpos]
    have hcast : (w : ℚ) + (t : ℚ) ≤ (k : ℚ) := by exact_mod_cast h
    have ht : 0 ≤ (t : ℚ) := Nat.cast_nonneg t
    linarith

theorem estimate_equity_discard_bounds (sh : Nat → List Card → List Card)
    (ev : List Card → Int) (kept board : List Card) (trials : Nat) :
    0 ≤ BD.estimate_equity sh ev kept board trials ∧
      BD.estimate_equity sh ev kept board trials ≤ 1 := by
  unfold BD.estimate_equity
  exact ⟨mcValue_nonneg _ _ _, mcValue_le_one _ _ _ (runTrials_total_le _ _ _ _ _ _ _)⟩

theorem winCount_tieCount_le (sh : Nat → List Card → List Card)
    (ev : List Card → Int) (board hand : List Card) (need : Nat)
    (deck0 : List Card) (k : Nat) :
    winCount sh ev board hand need deck0 k +
      tieCount sh ev board hand need deck0 k ≤ k := by
  unfold winCount tieCount
  rw [← runTrials_wins, ← runTrials_ties]
  exact runTrials_total_le _ _ _ _ _ _ _

/-- C6: both estimators return (wins + ties / 2) / trials, zero when the
trial count is zero; wins counts trials whose own score strictly exceeds the
opponent score and ties counts trials with equal scores; the value lies in
the unit interval.  The equity-table variant wraps the same value in its
ok constructor behind the board-size check, and its payload obeys the same
bounds. -/
theorem equity_result_formula (sh : Nat → List Card → List Card)
    (ev : List Card → Int) (kept hand board : List Card) (trials : Nat) :
    BD.estimate_equity sh ev kept board trials =
      (if trials = 0 then 0 else
        ((winCount sh ev board kept (5 - board.length)
            (remainingDeck kept board) trials : ℚ) +
          (1 / 2) * (tieCount sh ev board kept (5 - board.length)
            (remainingDeck kept board) trials : ℚ)) / (trials : ℚ)) ∧
    0 ≤ BD.estimate_equity sh ev kept board trials ∧
    BD.estimate_equity sh ev kept board trials ≤ 1 ∧
    BE.estimate_equity sh ev hand board trials =
      (if BE.FINAL_BOARD_CARDS < board.length then
        Except.error ("Board has more than final 6 cards")
      else Except.ok (if trials = 0 then 0 else
        ((winCount sh (fun cs => BE.best5_score ev cs) board hand
            (BE.FINAL_BOARD_CARDS - board.length) (remainingDeck hand board) trials : ℚ) +
          (1 / 2) * (tieCount sh (fun cs => BE.best5_score ev cs) board hand
            (BE.FINAL_BOARD_CARDS - board.length) (remainingDeck hand board) trials : ℚ)) /
          (trials : ℚ))) ∧
    0 ≤ (if trials = 0 then (0 : ℚ) else
        ((winCount sh (fun cs => BE.best5_score ev cs) board hand
            (BE.FINAL_BOARD_CARDS - board.length) (remainingDeck hand board) trials : ℚ) +
          (1 / 2) * (tieCount sh (fun cs => BE.best5_score ev cs) board hand
            (BE.FINAL_BOARD_CARDS - board.length) (remainingDeck hand board) trials : ℚ)) /
          (trials : ℚ)) ∧
    (if trials = 0 then (0 : ℚ) else
        ((winCount sh (fun cs => BE.best5_score ev cs) board hand
            (BE.FINAL_BOARD_CARDS - board.length) (remainingDeck hand board) trials : ℚ) +
          (1 / 2) * (tieCount sh (fun cs => BE.best5_score ev cs) board hand
            (BE.FINAL_BOARD_CARDS - board.length) (remainingDeck hand board) trials : ℚ)) /
          (trials : ℚ)) ≤ 1 := by
  refine ⟨?_, (estimate_equity_discard_bounds sh ev kept board trials).1,
    (estimate_equity_discard_bounds sh ev kept board trials).2, ?_, ?_, ?_⟩
  · unfold BD.estimate_equity
    dsimp only
    rw [runTrials_wins, runTrials_ties]
    rfl
  · unfold BE.estimate_equity
    dsimp only
    split
    · rfl
    · rw [runTrials_wins, runTrials_ties]
      by_cases ht : trials = 0 <;> simp [ht, winCount, tieCount]
  · exact mcValue_nonneg _ _ _
  · exact mcValue_le_one _ _ _ (winCount_tieCount_le _ _ _ _ _ _ _)

/-- C3 (amended): the equity-table estimator fails with the distinct
configuration error exactly when the board exceeds the six-card target and
otherwise returns an ordinary value; the discard-table estimator has no such
check: its draw count 5 minus board size is negative exactly when the board
exceeds five cards, yet the estimator still returns an ordinary equity value
in the unit interval. -/
theorem equity_precondition_check (sh : Nat → List Card → List Card)
    (ev : List Card → Int) (hand kept board : List Card) (trials : Nat) :
    ((BE.estimate_equity sh ev hand board trials =
        Except.error ("Board has more than final 6 cards")) ↔
      BE.FINAL_BOARD_CARDS < board.length) ∧
    ((∃ q : ℚ, BE.estimate_equity sh ev hand board trials = Except.ok q) ↔
      board.length ≤ BE.FINAL_BOARD_CARDS) ∧
    (discard_need_board board < 0 ↔ 5 < board.length) ∧
    0 ≤ BD.estimate_equity sh ev kept board trials ∧
    BD.estimate_equity sh ev kept board trials ≤ 1 := by
  refine ⟨?_, ?_, ?_, (estimate_equity_discard_bounds sh ev kept board trials).1,
    (estimate_equity_discard_bounds sh ev kept board trials).2⟩
  · unfold BE.estimate_equity
    dsimp only
    split
    · rename_i h
      simp [h]
    · rename_i h
      constructor
      · intro hc
        split at hc <;> simp at hc
      · intro hc
        exact absurd hc h
  · unfold BE.estimate_equity
    dsimp only
    split
    · rename_i h
      constructor
      · rintro ⟨q, hq⟩
        simp at hq
      · intro hc
        omega
    · rename_i h
      constructor
      · intro _
        omega
      · intro _
        split
        · exact ⟨0, rfl⟩
        · exact ⟨_, rfl⟩
  · unfold discard_need_board
    omega

/-- Counterexample for C3 as stated: on a six-card board the discard-table
estimator computes the negative draw count minus one and still returns an
ordinary equity value instead of failing. -/
theorem equity_precondition_counterexample :
    discard_need_board
        [('2', 's'), ('3', 's'), ('4', 's'), ('5', 's'), ('6', 's'), ('7', 's')] < 0 ∧
    BD.estimate_equity (fun _ d => d) (fun _ => 0) []
        [('2', 's'), ('3', 's'), ('4', 's'), ('5', 's'), ('6', 's'), ('7', 's')] 0 =
      0 := by
  constructor
  · decide
  · rfl

theorem dealt_parts_eq (need : Nat) (d : List Card) :
    dealtOpp d ++ (dealtDraw need d ++ dealtRest need d) = d := by
  unfold dealtOpp dealtDraw dealtRest
  rw [List.take_append_drop, List.take_append_drop]

theorem trialStep_deck_perm (sh : Nat → List Card → List Card)
    (ev : List Card → Int) (board hand : List Card) (need : Nat)
    (st : Nat × Nat × List Card) (t : Nat)
    (hsh : ∀ u d, List.Perm (sh u d) d) :
    List.Perm (trialStep sh ev board hand need st t).2.2 st.2.2 := by
  unfold trialStep
  dsimp only
  refine List.Perm.trans ?_ (hsh t st.2.2)
  have h1 : List.Perm
      (dealtRest need (sh t st.2.2) ++
        (dealtOpp (sh t st.2.2) ++ dealtDraw need (sh t st.2.2)))
      ((dealtOpp (sh t st.2.2) ++ dealtDraw need (sh t st.2.2)) ++
        dealtRest need (sh t st.2.2)) := List.perm_append_comm
  rw [List.append_assoc, dealt_parts_eq] at h1
  exact h1

/-- C9: the trial deck is restored after every Monte Carlo trial: whenever
the external shuffle only permutes the deck, the deck the loop holds at the
start of each trial is a permutation of — holds exactly the same multiset
as — the 52-card universe minus the known hand and board cards. -/
theorem deck_restoration (sh : Nat → List Card → List Card)
    (ev : List Card → Int) (hand board : List Card) (need : Nat) (k : Nat)
    (hsh : ∀ u d, List.Perm (sh u d) d) :
    List.Perm (runTrials sh ev board hand need (remainingDeck hand board) k).2.2
      (remainingDeck hand board) := by
  induction k with
  | zero => exact List.Perm.refl _
  | succ j ih =>
    rw [runTrials_succ]
    exact (trialStep_deck_perm sh ev board hand need _ j hsh).trans ih

/-- Witness for C9: identity shuffle, a concrete hand, empty board, one
trial. -/
theorem deck_restoration_witness :
    (∀ (u : Nat) (d : List Card), List.Perm ((fun _ l => l) u d) d) ∧
    List.Perm
      (runTrials (fun _ l => l) (fun _ => 0) [] [('A', 's'), ('A', 'h')] 5
        (remainingDeck [('A', 's'), ('A', 'h')] []) 1).2.2
      (remainingDeck [('A', 's'), ('A', 'h')] []) :=
  ⟨fun _ _ => List.Perm.refl _,
    deck_restoration (fun _ l => l) (fun _ => 0) [('A', 's'), ('A', 'h')] [] 5 1
      (fun _ _ => List.Perm.refl _)⟩

namespace BD

/-- Embeds best_discard of build_discard_table.py: try each of the three
discard positions, estimate the equity of the remaining two cards, and keep
the first position whose equity strictly beats the best seen so far,
starting from minus one. -/
def best_discard (sh : Nat → List Card → List Card) (ev : List Card → Int)
    (hand3 board : List Card) (trials : Nat) : Option Nat :=
  ((List.range 3).foldl (fun acc di =>
      let score := estimate_equity sh ev (hand3.eraseIdx di) board trials
      if acc.2 < score then (some di, score) else acc)
    ((none : Option Nat), (-1 : ℚ))).1

/-- Embeds the inner loops of build_table of build_discard_table.py over
given hand and board samples: boards sharing a card with the hand are
skipped, every surviving pair stores its key with the best discard. -/
def build_table_entries (sh : Nat → List Card → List Card) (ev : List Card → Int)
    (hands boards : List (List Card)) (trials : Nat) :
    List (String × Option Nat) :=
  hands.foldl (fun tbl hand3 =>
    boards.foldl (fun tbl board =>
      if board.any (fun c => decide (c ∈ hand3)) then tbl
      else tbl ++ [(hand_key hand3 board ++ "|" ++ flop_signature board hand3,
        best_discard sh ev hand3 board trials)]) tbl) []

end BD

theorem best_discard_some (sh : Nat → List Card → List Card)
    (ev : List Card → Int) (hand3 board : List Card) (trials : Nat) :
    ∃ i, BD.best_discard sh ev hand3 board trials = some i ∧ i < 3 ∧
      (∀ j, j < 3 →
        BD.estimate_equity sh ev (hand3.eraseIdx j) board trials ≤
          BD.estimate_equity sh ev (hand3.eraseIdx i) board trials) ∧
      (∀ j, j < i →
        BD.estimate_equity sh ev (hand3.eraseIdx j) board trials <
          BD.estimate_equity sh ev (hand3.eraseIdx i) board trials) := by
  have he0 := (estimate_equity_discard_bounds sh ev (hand3.eraseIdx 0) board trials).1
  unfold BD.best_discard
  have hr : List.range 3 = [0, 1, 2] := rfl
  rw [hr, List.foldl_cons, List.foldl_cons, List.foldl_cons, List.foldl_nil]
  dsimp only
  have h1 : (-1 : ℚ) < BD.estimate_equity sh ev (hand3.eraseIdx 0) board trials := by
    linarith
  rw [if_pos h1]
  by_cases h2 : BD.estimate_equity sh ev (hand3.eraseIdx 0) board trials <
      BD.estimate_equity sh ev (hand3.eraseIdx 1) board trials
  · rw [if_pos h2]
    by_cases h3 : BD.estimate_equity sh ev (hand3.eraseIdx 1) board trials <
        BD.estimate_equity sh ev (hand3.eraseIdx 2) board trials
    · rw [if_pos h3]
      refine ⟨2, rfl, by omega, ?_, ?_⟩
      · intro j hj
        interval_cases j <;> linarith
      · intro j hj
        interval_cases j <;> linarith
    · rw [if_neg h3]
      refine ⟨1, rfl, by omega, ?_, ?_⟩
      · intro j hj
        interval_cases j <;> linarith
      · intro j hj
        interval_cases j
        linarith
  · rw [if_neg h2]
    by_cases h3 : BD.estimate_equity sh ev (hand3.eraseIdx 0) board trials <
        BD.estimate_equity sh ev (hand3.eraseIdx 2) board trials
    · rw [if_pos h3]
      refine ⟨2, rfl, by omega, ?_, ?_⟩
      · intro j hj
        interval_cases j <;> linarith
      · intro j hj
        interval_cases j <;> linarith
    · rw [if_neg h3]
      refine ⟨0, rfl, by omega, ?_, ?_⟩
      · intro j hj
        interval_cases j <;> linarith
      · intro j hj
        omega

theorem build_entries_boards_aux (sh : Nat → List Card → List Card)
    (ev : List Card → Int) (hand3 : List Card) (trials : Nat) :
    ∀ (boards : List (List Card)) (tbl : List (String × Option Nat)),
    (∀ kv ∈ tbl, ∃ i, kv.2 = some i ∧ i < 3) →
    ∀ kv ∈ boards.foldl (fun tbl board =>
      if board.any (fun c => decide (c ∈ hand3)) then tbl
      else tbl ++ [(BD.hand_key hand3 board ++ "|" ++ BD.flop_signature board hand3,
        BD.best_discard sh ev hand3 board trials)]) tbl,
      ∃ i, kv.2 = some i ∧ i < 3 := by
  intro boards
  induction boards with
  | nil => intro tbl h kv hkv; exact h kv hkv
  | cons b bs ih =>
    intro tbl h kv hkv
    rw [List.foldl_cons] at hkv
    refine ih _ ?_ kv hkv
    intro kv2 hkv2
    split at hkv2
    · exact h kv2 hkv2
    · rcases List.mem_append.mp hkv2 with hm | hm
      · exact h kv2 hm
      · rw [List.mem_singleton] at hm
        subst hm
        rcases best_discard_some sh ev hand3 b trials with ⟨i, hi, hlt, _⟩
        exact ⟨i, hi, hlt⟩

/-- C7: best_discard returns the first index among 0, 1, 2 whose remaining
two-card hand achieves the maximal estimated equity, ties resolved in favor
of the earlier index, and the value is always a valid position of the
three-card hand; consequently every value stored by the table-building loop
is a valid pre-discard hand position. -/
theorem best_discard_valid (sh : Nat → List Card → List Card)
    (ev : List Card → Int) (hand3 board : List Card) (trials : Nat)
    (hands boards : List (List Card)) :
    (∃ i, BD.best_discard sh ev hand3 board trials = some i ∧ i < 3 ∧
      (∀ j, j < 3 →
        BD.estimate_equity sh ev (hand3.eraseIdx j) board trials ≤
          BD.estimate_equity sh ev (hand3.eraseIdx i) board trials) ∧
      (∀ j, j < i →
        BD.estimate_equity sh ev (hand3.eraseIdx j) board trials <
          BD.estimate_equity sh ev (hand3.eraseIdx i) board trials)) ∧
    (∀ kv ∈ BD.build_table_entries sh ev hands boards trials,
      ∃ i, kv.2 = some i ∧ i < 3) := by
  refine ⟨best_discard_some sh ev hand3 board trials, ?_⟩
  unfold BD.build_table_entries
  have haux : ∀ (hs : List (List Card)) (tbl : List (String × Option Nat)),
      (∀ kv ∈ tbl, ∃ i, kv.2 = some i ∧ i < 3) →
      ∀ kv ∈ hs.foldl (fun tbl hand3 =>
        boards.foldl (fun tbl board =>
          if board.any (fun c => decide (c ∈ hand3)) then tbl
          else tbl ++ [(BD.hand_key hand3 board ++ "|" ++
            BD.flop_signature board hand3,
            BD.best_discard sh ev hand3 board trials)]) tbl) tbl,
        ∃ i, kv.2 = some i ∧ i < 3 := by
    intro hs
    induction hs with
    | nil => intro tbl h kv hkv; exact h kv hkv
    | cons hd tl ih =>
      intro tbl h kv hkv
      rw [List.foldl_cons] at hkv
      exact ih _ (build_entries_boards_aux sh ev hd trials boards tbl h) kv hkv
  exact haux hands [] (fun kv hkv => absurd hkv (List.not_mem_nil kv))

/-- Witness for C7 on a one-hand, one-board build with zero trials. -/
theorem best_discard_valid_witness :
    ∃ i, ((BD.hand_key [('A', 's'), ('K', 'h'), ('Q', 's')] [] ++ "|" ++
        BD.flop_signature [] [('A', 's'), ('K', 'h'), ('Q', 's')],
        BD.best_discard (fun _ l => l) (fun _ => 0)
          [('A', 's'), ('K', 'h'), ('Q', 's')] [] 0) :
        String × Option Nat).2 = some i ∧ i < 3 :=
  (best_discard_valid (fun _ l => l) (fun _ => 0)
      [('A', 's'), ('K', 'h'), ('Q', 's')] [] 0
      [[('A', 's'), ('K', 'h'), ('Q', 's')]] [[]]).2 _
    (List.mem_singleton.mpr rfl)

abbrev CCCard := Nat × Nat

/-- Result dictionary of the classifier, one strength flag per category. -/
structure HandFlags where
  Pair : Nat
  TwoPair : Nat
  ThreeOfAKind : Nat
  Straight : Nat
  Flush : Nat
  FullHouse : Nat
  FourOfAKind : Nat
  StraightFlush : Nat
deriving Repr, DecidableEq

def insertDescNat (a : Nat) : List Nat → List Nat
  | [] => [a]
  | b :: rest => if b < a then a :: b :: rest else b :: insertDescNat a rest

/-- Descending sort of rank multiplicities, the sorted counts list. -/
def sortDesc (l : List Nat) : List Nat := l.foldr insertDescNat []

namespace CC

/-- The wheel augmentation shared by has_straight and straight_draw of
poker_utils.py: an ace also contributes a virtual rank one. -/
def withWheel (s : Finset Nat) : Finset Nat := if 14 ∈ s then s ∪ {1} else s

/-- Embeds has_straight of poker_utils.py. -/
def has_straight (rank_set : Finset Nat) : Bool :=
  (List.range' 1 10).any (fun start =>
    (List.range 5).all (fun i => decide ((start + i) ∈ withWheel rank_set)))

/-- Embeds straight_draw of poker_utils.py: some five-rank window holds
exactly four present ranks. -/
def straight_draw (rank_set : Finset Nat) : Bool :=
  (List.range' 1 10).any (fun start =>
    (List.range 5).countP (fun i => decide ((start + i) ∈ withWheel rank_set)) == 4)

/-- Ranks of the cards of one suit, the suited_ranks set comprehension. -/
def suitedRanks (cards : List CCCard) (su : Nat) : Finset Nat :=
  ((cards.filter (fun c => decide (c.2 = su))).map Prod.fst).toFinset

/-- Made-hand flags of evaluate_poker_hands of poker_utils.py, before the
draw section. -/
def madeFlags (hand_cards board_cards : List CCCard) : HandFlags :=
  let cards := hand_cards ++ board_cards
  let ranks := cards.map Prod.fst
  let suits := cards.map Prod.snd
  let counts := sortDesc ((ranks.eraseDups).map (fun r => ranks.count r))
  let c0 := counts.headD 0
  let c1 := counts.getD 1 0
  let unique_ranks := ranks.toFinset
  let flush_suits := (suits.eraseDups).filter (fun su => decide (5 ≤ suits.count su))
  let straightFlag : Nat := if has_straight unique_ranks then 2 else 0
  let flushFlag : Nat := if flush_suits ≠ [] then 2 else 0
  { Pair := if 2 ≤ c0 then 2 else 0
    TwoPair := if 2 ≤ counts.length ∧ 2 ≤ c0 ∧ 2 ≤ c1 then 2 else 0
    ThreeOfAKind := if 3 ≤ c0 then 2 else 0
    Straight := straightFlag
    Flush := flushFlag
    FullHouse := if 2 ≤ counts.length ∧ 3 ≤ c0 ∧ 2 ≤ c1 then 2 else 0
    FourOfAKind := if 4 ≤ c0 then 2 else 0
    StraightFlush := if straightFlag = 2 ∧ flushFlag = 2 ∧
        flush_suits.any (fun su => has_straight (suitedRanks cards su)) then 2
      else 0 }

/-- Draw section of evaluate_poker_hands of poker_utils.py, applied to the
made flags when fewer than eight cards are known. -/
def drawFlags (hand_cards board_cards : List CCCard) (f : HandFlags) : HandFlags :=
  let cards := hand_cards ++ board_cards
  let ranks := cards.map Prod.fst
  let suits := cards.map Prod.snd
  let counts := sortDesc ((ranks.eraseDups).map (fun r => ranks.count r))
  let c0 := counts.headD 0
  let unique_ranks := ranks.toFinset
  let trips_nonempty :=
    (ranks.eraseDups).filter (fun r => decide (3 ≤ ranks.count r)) ≠ []
  let pair_ranks := (ranks.eraseDups).filter (fun r => decide (2 ≤ ranks.count r))
  { Pair := if f.Pair = 0 then 1 else f.Pair
    TwoPair := if f.TwoPair = 0 ∧ c0 = 2 ∧ 3 ≤ cards.length then 1 else f.TwoPair
    ThreeOfAKind := if f.ThreeOfAKind = 0 ∧ c0 = 2 then 1 else f.ThreeOfAKind
    Straight := if f.Straight = 0 ∧ straight_draw unique_ranks then 1 else f.Straight
    Flush := if f.Flush = 0 ∧
        (suits.eraseDups).filter (fun su => decide (4 ≤ suits.count su)) ≠ [] then 1
      else f.Flush
    FullHouse := if f.FullHouse = 0 then
        (if trips_nonempty ∧ 2 ≤ (ranks.eraseDups).length then 1
         else if 2 ≤ pair_ranks.length then 1 else 0)
      else f.FullHouse
    FourOfAKind := if f.FourOfAKind = 0 ∧ c0 = 3 then 1 else f.FourOfAKind
    StraightFlush := if f.StraightFlush = 0 ∧
        (suits.eraseDups).any (fun su =>
          decide (4 ≤ suits.count su) && straight_draw (suitedRanks cards su)) then 1
      else f.StraightFlush }

/-- Embeds evaluate_poker_hands of poker_utils.py with the default cap of
eight cards: made hands always, draws only while information is
incomplete. -/
def evaluate_poker_hands (hand_cards board_cards : List CCCard) : HandFlags :=
  if (hand_cards ++ board_cards).length < 8 then
    drawFlags hand_cards board_cards (madeFlags hand_cards board_cards)
  else madeFlags hand_cards board_cards

end CC

theorem has_straight_iff (s : Finset Nat) :
    CC.has_straight s = true ↔
      ∃ start, 1 ≤ start ∧ start ≤ 10 ∧ ∀ i < 5, start + i ∈ CC.withWheel s := by
  unfold CC.has_straight
  rw [List.any_eq_true]
  constructor
  · rintro ⟨start, hmem, hall⟩
    rw [List.mem_range'_1] at hmem
    rw [List.all_eq_true] at hall
    refine ⟨start, hmem.1, by omega, fun i hi => ?_⟩
    exact of_decide_eq_true (hall i (List.mem_range.mpr hi))
  · rintro ⟨start, h1, h2, hall⟩
    refine ⟨start, List.mem_range'_1.mpr ⟨h1, by omega⟩, ?_⟩
    rw [List.all_eq_true]
    exact fun i hi => decide_eq_true (hall i (List.mem_range.mp hi))

theorem straight_draw_iff (s : Finset Nat) :
    CC.straight_draw s = true ↔
      ∃ start, 1 ≤ start ∧ start ≤ 10 ∧
        (List.range 5).countP (fun i => decide (start + i ∈ CC.withWheel s)) = 4 := by
  unfold CC.straight_draw
  rw [List.any_eq_true]
  constructor
  · rintro ⟨start, hmem, hcnt⟩
    rw [List.mem_range'_1] at hmem
    simp only [beq_iff_eq] at hcnt
    exact ⟨start, hmem.1, by omega, hcnt⟩
  · rintro ⟨start, h1, h2, hcnt⟩
    refine ⟨start, List.mem_range'_1.mpr ⟨h1, by omega⟩, ?_⟩
    simp only [beq_iff_eq]
    exact hcnt

theorem madeFlags_Straight (h b : List CCCard) :
    (CC.madeFlags h b).Straight =
      if CC.has_straight (((h ++ b).map Prod.fst).toFinset) then 2 else 0 := rfl

theorem drawFlags_Straight (h b : List CCCard) (f : HandFlags) :
    (CC.drawFlags h b f).Straight =
      if f.Straight = 0 ∧ CC.straight_draw (((h ++ b).map Prod.fst).toFinset) then 1
      else f.Straight := rfl

theorem madeFlags_ne_one (h b : List CCCard) :
    (CC.madeFlags h b).Pair ≠ 1 ∧ (CC.madeFlags h b).TwoPair ≠ 1 ∧
    (CC.madeFlags h b).ThreeOfAKind ≠ 1 ∧ (CC.madeFlags h b).Straight ≠ 1 ∧
    (CC.madeFlags h b).Flush ≠ 1 ∧ (CC.madeFlags h b).FullHouse ≠ 1 ∧
    (CC.madeFlags h b).FourOfAKind ≠ 1 ∧ (CC.madeFlags h b).StraightFlush ≠ 1 := by
  unfold CC.madeFlags
  refine ⟨?_, ?_, ?_, ?_, ?_, ?_, ?_, ?_⟩ <;> dsimp only <;> (repeat' split) <;> omega

theorem evaluate_Straight_eq (hand board : List CCCard) :
    (CC.evaluate_poker_hands hand board).Straight =
      if CC.has_straight (((hand ++ board).map Prod.fst).toFinset) then 2
      else if (hand ++ board).length < 8 ∧
          CC.straight_draw (((hand ++ board).map Prod.fst).toFinset) then 1
      else 0 := by
  unfold CC.evaluate_poker_hands
  by_cases hn : (hand ++ board).length < 8
  · have hn2 : hand.length + board.length < 8 := by simpa using hn
    rw [if_pos hn, drawFlags_Straight, madeFlags_Straight]
    cases hsp : CC.has_straight (((hand ++ board).map Prod.fst).toFinset)
    · cases hsd : CC.straight_draw (((hand ++ board).map Prod.fst).toFinset)
      · simp [hsp, hsd, hn2]
      · simp [hsp, hsd, hn2]
    · simp [hsp, hn2]
  · have hn2 : ¬ hand.length + board.length < 8 := by simpa using hn
    rw [if_neg hn, madeFlags_Straight]
    cases hsp : CC.has_straight (((hand ++ board).map Prod.fst).toFinset)
    · simp [hsp, hn2]
    · simp [hsp, hn2]

/-- C5: the classifier marks Straight made exactly when five consecutive
ranks are present, with an ace also contributing a virtual rank one; when the
straight is not made and fewer than eight cards are known it marks a straight
draw exactly when some five-rank window holds exactly four present ranks; and
with exactly eight cards no category carries the draw flag. -/
theorem classifier_straight_spec (hand board : List CCCard)
    (_hlo : 2 ≤ (hand ++ board).length) (_hhi : (hand ++ board).length ≤ 8) :
    ((CC.evaluate_poker_hands hand board).Straight = 2 ↔
      ∃ start, 1 ≤ start ∧ start ≤ 10 ∧ ∀ i < 5,
        start + i ∈ CC.withWheel (((hand ++ board).map Prod.fst).toFinset)) ∧
    ((CC.evaluate_poker_hands hand board).Straight ≠ 2 →
      (hand ++ board).length < 8 →
      ((CC.evaluate_poker_hands hand board).Straight = 1 ↔
        ∃ start, 1 ≤ start ∧ start ≤ 10 ∧
          (List.range 5).countP (fun i =>
            decide (start + i ∈
              CC.withWheel (((hand ++ board).map Prod.fst).toFinset))) = 4)) ∧
    ((hand ++ board).length = 8 →
      (CC.evaluate_poker_hands hand board).Pair ≠ 1 ∧
      (CC.evaluate_poker_hands hand board).TwoPair ≠ 1 ∧
      (CC.evaluate_poker_hands hand board).ThreeOfAKind ≠ 1 ∧
      (CC.evaluate_poker_hands hand board).Straight ≠ 1 ∧
      (CC.evaluate_poker_hands hand board).Flush ≠ 1 ∧
      (CC.evaluate_poker_hands hand board).FullHouse ≠ 1 ∧
      (CC.evaluate_poker_hands hand board).FourOfAKind ≠ 1 ∧
      (CC.evaluate_poker_hands hand board).StraightFlush ≠ 1) := by
  refine ⟨?_, ?_, ?_⟩
  · rw [evaluate_Straight_eq]
    by_cases hs : CC.has_straight (((hand ++ board).map Prod.fst).toFinset) = true
    · rw [if_pos hs]
      exact iff_of_true rfl ((has_straight_iff _).mp hs)
    · rw [if_neg hs]
      refine iff_of_false ?_ fun hc => hs ((has_straight_iff _).mpr hc)
      split <;> omega
  · intro hne hn
    rw [evaluate_Straight_eq] at hne ⊢
    by_cases hs : CC.has_straight (((hand ++ board).map Prod.fst).toFinset) = true
    · rw [if_pos hs] at hne
      exact absurd rfl hne
    · rw [if_neg hs] at hne ⊢
      by_cases hsd : CC.straight_draw (((hand ++ board).map Prod.fst).toFinset) = true
      · rw [if_pos ⟨hn, hsd⟩]
        exact iff_of_true rfl ((straight_draw_iff _).mp hsd)
      · rw [if_neg (fun hc => hsd hc.2)]
        exact iff_of_false (by omega) fun hc => hsd ((straight_draw_iff _).mpr hc)
  · intro h8
    have hn : ¬ (hand ++ board).length < 8 := by omega
    unfold CC.evaluate_poker_hands
    rw [if_neg hn]
    exact madeFlags_ne_one hand board

/-- Witness for C5 on ace-king against queen-jack, a four-card input with an
open-ended draw. -/
theorem classifier_straight_spec_witness :
    2 ≤ (([(14, 0), (13, 1)] : List CCCard) ++ [(12, 2), (11, 3)]).length ∧
    (([(14, 0), (13, 1)] : List CCCard) ++ [(12, 2), (11, 3)]).length ≤ 8 ∧
    (((CC.evaluate_poker_hands [(14, 0), (13, 1)] [(12, 2), (11, 3)]).Straight = 2 ↔
      ∃ start, 1 ≤ start ∧ start ≤ 10 ∧ ∀ i < 5,
        start + i ∈ CC.withWheel
          (((([(14, 0), (13, 1)] : List CCCard) ++
            [(12, 2), (11, 3)]).map Prod.fst).toFinset)) ∧
    ((CC.evaluate_poker_hands [(14, 0), (13, 1)] [(12, 2), (11, 3)]).Straight ≠ 2 →
      (([(14, 0), (13, 1)] : List CCCard) ++ [(12, 2), (11, 3)]).length < 8 →
      ((CC.evaluate_poker_hands [(14, 0), (13, 1)] [(12, 2), (11, 3)]).Straight = 1 ↔
        ∃ start, 1 ≤ start ∧ start ≤ 10 ∧
          (List.range 5).countP (fun i =>
            decide (start + i ∈ CC.withWheel
              (((([(14, 0), (13, 1)] : List CCCard) ++
                [(12, 2), (11, 3)]).map Prod.fst).toFinset))) = 4)) ∧
    ((([(14, 0), (13, 1)] : List CCCard) ++ [(12, 2), (11, 3)]).length = 8 →
      (CC.evaluate_poker_hands [(14, 0), (13, 1)] [(12, 2), (11, 3)]).Pair ≠ 1 ∧
      (CC.evaluate_poker_hands [(14, 0), (13, 1)] [(12, 2), (11, 3)]).TwoPair ≠ 1 ∧
      (CC.evaluate_poker_hands [(14, 0), (13, 1)] [(12, 2), (11, 3)]).ThreeOfAKind ≠ 1 ∧
      (CC.evaluate_poker_hands [(14, 0), (13, 1)] [(12, 2), (11, 3)]).Straight ≠ 1 ∧
      (CC.evaluate_poker_hands [(14, 0), (13, 1)] [(12, 2), (11, 3)]).Flush ≠ 1 ∧
      (CC.evaluate_poker_hands [(14, 0), (13, 1)] [(12, 2), (11, 3)]).FullHouse ≠ 1 ∧
      (CC.evaluate_poker_hands [(14, 0), (13, 1)] [(12, 2), (11, 3)]).FourOfAKind ≠ 1 ∧
      (CC.evaluate_poker_hands [(14, 0), (13, 1)]
        [(12, 2), (11, 3)]).StraightFlush ≠ 1)) :=
  ⟨by decide, by decide,
    classifier_straight_spec [(14, 0), (13, 1)] [(12, 2), (11, 3)]
      (by decide) (by decide)⟩

namespace CC

/-- Embeds poker_hand_scorer of poker_utils.py over exact rational
arithmetic; the square-root function of the external math library is a
parameter so the embedding stays executable. -/
def poker_hand_scorer (sq : Nat → ℚ) (hand_cards board_cards : List CCCard) : ℚ :=
  let poker_hand := evaluate_poker_hands hand_cards board_cards
  let cards := hand_cards ++ board_cards
  let ranks := cards.map Prod.fst
  let maxRank := ranks.foldr max 0
  let s1 := ranks.foldl (fun (acc : ℚ) (r : Nat) => acc + (1 / 4) * (r : ℚ)) 0
  let s2 := (ranks.eraseDups).foldl
    (fun acc r => acc + sq r * ((ranks.count r : ℚ)) ^ 2) s1
  let s3 := s2 + 1 * (poker_hand.Pair : ℚ) + 2 * (poker_hand.TwoPair : ℚ) +
    3 * (poker_hand.ThreeOfAKind : ℚ) + 4 * (poker_hand.Straight : ℚ) +
    5 * (poker_hand.Flush : ℚ) + 6 * (poker_hand.FullHouse : ℚ) +
    7 * (poker_hand.FourOfAKind : ℚ) + 8 * (poker_hand.StraightFlush : ℚ)
  let s4 := s3 + (if poker_hand.Straight = 2 then 10 * sq maxRank
    else if poker_hand.Straight = 1 then 7 * sq maxRank else 0)
  let s5 := s4 + (if poker_hand.Flush = 2 then 12 * sq maxRank
    else if poker_hand.Flush = 1 then 8 * sq maxRank else 0)
  let s6 := s5 + (if poker_hand.StraightFlush = 2 then 20 * sq maxRank
    else if poker_hand.StraightFlush = 1 then 10 * sq maxRank else 0)
  s6 / (cards.length : ℚ)

end CC

theorem foldr_max_le (l : List Nat) (M : Nat) (hub : ∀ r ∈ l, r ≤ M) :
    l.foldr max 0 ≤ M := by
  induction l with
  | nil => exact Nat.zero_le M
  | cons a t ih =>
    simp only [List.foldr_cons]
    exact max_le (hub a (List.mem_cons_self a t))
      (ih fun r hr => hub r (List.mem_cons_of_mem a hr))

theorem le_foldr_max (l : List Nat) (r : Nat) (h : r ∈ l) :
    r ≤ l.foldr max 0 := by
  induction l with
  | nil => cases h
  | cons a t ih =>
    simp only [List.foldr_cons]
    rcases List.mem_cons.mp h with rfl | h2
    · exact le_max_left _ _
    · exact le_trans (ih h2) (le_max_right _ _)

theorem foldr_max_eq (l : List Nat) (M : Nat) (hmem : M ∈ l)
    (hub : ∀ r ∈ l, r ≤ M) : l.foldr max 0 = M :=
  le_antisymm (foldr_max_le l M hub) (le_foldr_max l M hmem)

theorem foldl_add_map {α : Type} (f : α → ℚ) (l : List α) (init : ℚ) :
    l.foldl (fun acc x => acc + f x) init = init + (l.map f).sum := by
  induction l generalizing init with
  | nil => simp
  | cons a t ih =>
    rw [List.foldl_cons, ih, List.map_cons, List.sum_cons]
    ring

/-- C8: the heuristic scorer computes exactly the documented formula: the
quarter-rank sum, plus square-root-weighted squared multiplicities over
distinct ranks, plus ordinal-weighted category flags with Pair at one up to
StraightFlush at eight, plus the straight, flush and straight-flush bonuses
keyed on the maximal rank M, all divided by the card count. -/
theorem scorer_formula (sq : Nat → ℚ) (hand board : List CCCard) (M : Nat)
    (_hlo : 2 ≤ (hand ++ board).length) (_hhi : (hand ++ board).length ≤ 8)
    (hmem : M ∈ (hand ++ board).map Prod.fst)
    (hmax : ∀ r ∈ (hand ++ board).map Prod.fst, r ≤ M) :
    CC.poker_hand_scorer sq hand board =
      ((((hand ++ board).map Prod.fst).map (fun (r : Nat) => (1 / 4) * (r : ℚ))).sum +
        ((((hand ++ board).map Prod.fst).eraseDups).map
          (fun r => sq r * (((hand ++ board).map Prod.fst).count r : ℚ) ^ 2)).sum +
        (1 * ((CC.evaluate_poker_hands hand board).Pair : ℚ) +
         2 * ((CC.evaluate_poker_hands hand board).TwoPair : ℚ) +
         3 * ((CC.evaluate_poker_hands hand board).ThreeOfAKind : ℚ) +
         4 * ((CC.evaluate_poker_hands hand board).Straight : ℚ) +
         5 * ((CC.evaluate_poker_hands hand board).Flush : ℚ) +
         6 * ((CC.evaluate_poker_hands hand board).FullHouse : ℚ) +
         7 * ((CC.evaluate_poker_hands hand board).FourOfAKind : ℚ) +
         8 * ((CC.evaluate_poker_hands hand board).StraightFlush : ℚ)) +
        (if (CC.evaluate_poker_hands hand board).Straight = 2 then 10 * sq M
         else if (CC.evaluate_poker_hands hand board).Straight = 1 then 7 * sq M
         else 0) +
        (if (CC.evaluate_poker_hands hand board).Flush = 2 then 12 * sq M
         else if (CC.evaluate_poker_hands hand board).Flush = 1 then 8 * sq M
         else 0) +
        (if (CC.evaluate_poker_hands hand board).StraightFlush = 2 then 20 * sq M
         else if (CC.evaluate_poker_hands hand board).StraightFlush = 1 then
           10 * sq M
         else 0)) / (((hand ++ board).length : ℚ)) := by
  unfold CC.poker_hand_scorer
  dsimp only
  rw [foldr_max_eq ((hand ++ board).map Prod.fst) M hmem hmax,
    foldl_add_map (fun (r : Nat) => (1 / 4) * (r : ℚ)),
    foldl_add_map (fun r : Nat =>
      sq r * (((hand ++ board).map Prod.fst).count r : ℚ) ^ 2)]
  ring

/-- Witness for C8 on the same four concrete cards, with the identity cast
standing in for the square root. -/
theorem scorer_formula_witness :
    2 ≤ (([(14, 0), (13, 1)] : List CCCard) ++ [(12, 2), (11, 3)]).length ∧
    (([(14, 0), (13, 1)] : List CCCard) ++ [(12, 2), (11, 3)]).length ≤ 8 ∧
    14 ∈ (([(14, 0), (13, 1)] : List CCCard) ++ [(12, 2), (11, 3)]).map Prod.fst ∧
    (∀ r ∈ (([(14, 0), (13, 1)] : List CCCard) ++
      [(12, 2), (11, 3)]).map Prod.fst, r ≤ 14) ∧
    CC.poker_hand_scorer (fun n => (n : ℚ)) [(14, 0), (13, 1)] [(12, 2), (11, 3)] =
      ((((([(14, 0), (13, 1)] : List CCCard) ++
            [(12, 2), (11, 3)]).map Prod.fst).map (fun (r : Nat) => (1 / 4) * (r : ℚ))).sum +
        ((((([(14, 0), (13, 1)] : List CCCard) ++
            [(12, 2), (11, 3)]).map Prod.fst).eraseDups).map
          (fun r => (fun n => (n : ℚ)) r *
            (((([(14, 0), (13, 1)] : List CCCard) ++
              [(12, 2), (11, 3)]).map Prod.fst).count r : ℚ) ^ 2)).sum +
        (1 * ((CC.evaluate_poker_hands [(14, 0), (13, 1)] [(12, 2), (11, 3)]).Pair : ℚ) +
         2 * ((CC.evaluate_poker_hands [(14, 0), (13, 1)] [(12, 2), (11, 3)]).TwoPair : ℚ) +
         3 * ((CC.evaluate_poker_hands [(14, 0), (13, 1)]
              [(12, 2), (11, 3)]).ThreeOfAKind : ℚ) +
         4 * ((CC.evaluate_poker_hands [(14, 0), (13, 1)] [(12, 2), (11, 3)]).Straight : ℚ) +
         5 * ((CC.evaluate_poker_hands [(14, 0), (13, 1)] [(12, 2), (11, 3)]).Flush : ℚ) +
         6 * ((CC.evaluate_poker_hands [(14, 0), (13, 1)] [(12, 2), (11, 3)]).FullHouse : ℚ) +
         7 * ((CC.evaluate_poker_hands [(14, 0), (13, 1)]
              [(12, 2), (11, 3)]).FourOfAKind : ℚ) +
         8 * ((CC.evaluate_poker_hands [(14, 0), (13, 1)]
              [(12, 2), (11, 3)]).StraightFlush : ℚ)) +
        (if (CC.evaluate_poker_hands [(14, 0), (13, 1)] [(12, 2), (11, 3)]).Straight = 2
         then 10 * (fun n => (n : ℚ)) 14
         else if (CC.evaluate_poker_hands [(14, 0), (13, 1)]
             [(12, 2), (11, 3)]).Straight = 1 then 7 * (fun n => (n : ℚ)) 14
         else 0) +
        (if (CC.evaluate_poker_hands [(14, 0), (13, 1)] [(12, 2), (11, 3)]).Flush = 2
         then 12 * (fun n => (n : ℚ)) 14
         else if (CC.evaluate_poker_hands [(14, 0), (13, 1)]
             [(12, 2), (11, 3)]).Flush = 1 then 8 * (fun n => (n : ℚ)) 14
         else 0) +
        (if (CC.evaluate_poker_hands [(14, 0), (13, 1)]
            [(12, 2), (11, 3)]).StraightFlush = 2 then 20 * (fun n => (n : ℚ)) 14
         else if (CC.evaluate_poker_hands [(14, 0), (13, 1)]
             [(12, 2), (11, 3)]).StraightFlush = 1 then 10 * (fun n => (n : ℚ)) 14
         else 0)) /
        (((([(14, 0), (13, 1)] : List CCCard) ++ [(12, 2), (11, 3)]).length : ℚ)) :=
  ⟨by decide, by decide, by decide, by decide,
    scorer_formula (fun n => (n : ℚ)) [(14, 0), (13, 1)] [(12, 2), (11, 3)] 14
      (by decide) (by decide) (by decide) (by decide)⟩
